import Mathlib

/-!
Shallow embedding of the dd-jsx incremental dataflow core (src/core of the
repository): the Delta/Change primitives, the stateful operator nodes
(join, reduce, withLatest, flatMap), the mutable Input source, the
transaction scheduler (tx.ts) and the context registry
(context-registry.ts).  Each operator is embedded as an explicit state
type plus a step function translated from the corresponding subscribe
callback in src/core/collection.ts; event sequences are folded with a
generic runner and theorems relate the emitted change streams to the
properties stated in the specification.
-/

namespace DDJsx

/-- Delta from src/core/delta.ts: an enum with Insert = 1 and Retract = -1. -/
inductive Delta : Type
  | Insert : Delta
  | Retract : Delta
deriving DecidableEq, Repr

/-- Numeric value of a delta, as in the source enum (Insert = 1, Retract = -1). -/
def Delta.val : Delta → Int
  | .Insert => 1
  | .Retract => -1

/-- Change from src/core/delta.ts: a value paired with a delta. -/
abbrev Change (T : Type) := T × Delta

/-- Fold one change into a signed multiplicity function (+1 per Insert,
-1 per Retract for the changed value). -/
def applyChange {T : Type} [DecidableEq T] (cnt : T → Int) (c : Change T) : T → Int :=
  fun y => if y = c.1 then cnt y + c.2.val else cnt y

/-- Fold a list of changes into a signed multiplicity function. -/
def applyChanges {T : Type} [DecidableEq T] (cnt : T → Int) (cs : List (Change T)) : T → Int :=
  cs.foldl applyChange cnt

/-- Multiplicity of a value implied by a change stream, starting from zero. -/
def impliedCount {T : Type} [DecidableEq T] (cs : List (Change T)) : T → Int :=
  applyChanges (fun _ => 0) cs

/-- Generic driver: fold a step function over an event list, threading the
node state and accumulating the emitted changes in order. -/
def runFold {σ ε ω : Type} (step : σ → ε → σ × List ω) : σ → List ω → List ε → σ × List ω
  | st, out, [] => (st, out)
  | st, out, e :: es => runFold step (step st e).1 (out ++ (step st e).2) es

/-- JS Set.add on an insertion-ordered duplicate-free list: appends the
element only when it is not already present. -/
def setAdd {T : Type} [DecidableEq T] (l : List T) (x : T) : List T :=
  if x ∈ l then l else l ++ [x]

/-- JS Map.get on an insertion-ordered association list. -/
def assocLookup {T V : Type} [DecidableEq T] : List (T × V) → T → Option V
  | [], _ => none
  | (k, v) :: rest, x => if k = x then some v else assocLookup rest x

/-- JS Map.set: overwrite the binding in place when the key is present,
append it otherwise. -/
def assocSet {T V : Type} [DecidableEq T] : List (T × V) → T → V → List (T × V)
  | [], x, v => [(x, v)]
  | (k, w) :: rest, x, v => if k = x then (x, v) :: rest else (k, w) :: assocSet rest x v

/-- JS Map.delete: remove the binding for the key when present. -/
def assocDelete {T V : Type} [DecidableEq T] : List (T × V) → T → List (T × V)
  | [], _ => []
  | (k, w) :: rest, x => if k = x then rest else (k, w) :: assocDelete rest x

/-- State of an Input (src/core/input.ts): the membership Set `values`
(insertion-ordered, duplicate-free) and the replay snapshot `data`
inherited from Collection. -/
structure InputState (T : Type) where
  values : List T
  data : List T
deriving DecidableEq, Repr

/-- Input.insert from src/core/input.ts: add to the membership set,
refresh the snapshot from the set, and emit one Insert delta. -/
def Input.insert {T : Type} [DecidableEq T] (st : InputState T) (v : T) :
    InputState T × List (Change T) :=
  let values := setAdd st.values v
  (⟨values, values⟩, [(v, Delta.Insert)])

/-- Input.retract from src/core/input.ts: delete from the membership set,
refresh the snapshot, and emit one Retract delta. -/
def Input.retract {T : Type} [DecidableEq T] (st : InputState T) (v : T) :
    InputState T × List (Change T) :=
  let values := st.values.erase v
  (⟨values, values⟩, [(v, Delta.Retract)])

/-- Input.update from src/core/input.ts: read the first held value; when
one exists, retract it and insert the image under the supplied function;
when the Input is empty nothing happens. -/
def Input.update {T : Type} [DecidableEq T] (st : InputState T) (f : T → T) :
    InputState T × List (Change T) :=
  match st.values.head? with
  | none => (st, [])
  | some current =>
      let p1 := Input.retract st current
      let p2 := Input.insert p1.1 (f current)
      (p2.1, p1.2 ++ p2.2)

/-- State of the transaction module (src/core/tx.ts): the process-wide
batching flag and the pending emission queue.  An emission closure is
modelled by the value it would deliver; the list alongside the state is
the log of emissions that have actually run. -/
structure TxState (E : Type) where
  batching : Bool
  pending : List E
deriving DecidableEq, Repr

/-- scheduleEmit from src/core/tx.ts: queue the emission while batching,
run it immediately (append to the delivered log) otherwise. -/
def scheduleEmit {E : Type} (st : TxState E) (log : List E) (e : E) : TxState E × List E :=
  if st.batching then (⟨st.batching, st.pending ++ [e]⟩, log) else (st, log ++ [e])

/-- Run a sequence of scheduleEmit calls in order. -/
def runScheduled {E : Type} : TxState E → List E → List E → TxState E × List E
  | st, log, [] => (st, log)
  | st, log, e :: es => runScheduled (scheduleEmit st log e).1 (scheduleEmit st log e).2 es

/-- tx from src/core/tx.ts: set the batching flag, run the body (a list of
emissions it passes to scheduleEmit before returning or throwing, with a
flag recording whether it threw), then in the finally block clear the
flag, drain the pending queue and run every drained emission in order.
The thrown flag is re-raised unchanged after the cleanup. -/
def tx {E : Type} (st : TxState E) (log : List E) (body : List E) (thrown : Bool) :
    (TxState E × List E) × Bool :=
  let p := runScheduled ⟨true, st.pending⟩ log body
  ((⟨false, []⟩, p.2 ++ p.1.pending), thrown)

/-- State of a ReduceCollection (src/core/collection.ts): the current
aggregate and the hasEmitted flag. -/
structure ReduceState (S : Type) where
  state : S
  hasEmitted : Bool
deriving DecidableEq, Repr

/-- Upstream-change handler of ReduceCollection.subscribe: compute the new
state with the fold, retract the old state when an answer was already
emitted, then insert the new state and record that an answer exists. -/
def reduceStep {S T : Type} (fold : S → T → Delta → S) (st : ReduceState S) (c : Change T) :
    ReduceState S × List (Change S) :=
  let newState := fold st.state c.1 c.2
  (⟨newState, true⟩,
    (if st.hasEmitted then [(st.state, Delta.Retract)] else []) ++ [(newState, Delta.Insert)])

/-- Run a ReduceCollection from its constructor state (aggregate = seed,
hasEmitted = false) over a list of upstream changes. -/
def reduceRun {S T : Type} (seed : S) (fold : S → T → Delta → S) (cs : List (Change T)) :
    ReduceState S × List (Change S) :=
  runFold (reduceStep fold) ⟨seed, false⟩ [] cs

/-- Replay burst a subscriber receives on attaching to a ReduceCollection:
Insert of the current state when an answer exists, nothing otherwise. -/
def reduceReplay {S : Type} (st : ReduceState S) : List (Change S) :=
  if st.hasEmitted then [(st.state, Delta.Insert)] else []

/-- Spec-side protocol (written from the specification text, for the
refinement comparison only): after the first answer, every upstream change
produces Retract of the previous state followed by Insert of the next. -/
def reduceSpecTail {S T : Type} (fold : S → T → Delta → S) : S → List (Change T) → List (Change S)
  | _, [] => []
  | s, c :: cs =>
      (s, Delta.Retract) :: (fold s c.1 c.2, Delta.Insert) :: reduceSpecTail fold (fold s c.1 c.2) cs

/-- Spec-side protocol (written from the specification text, for the
refinement comparison only): nothing is emitted before the first upstream
delta, the first delta yields a lone Insert, and each later delta yields a
Retract of the previous answer then an Insert of the new one. -/
def reduceSpecOutput {S T : Type} (seed : S) (fold : S → T → Delta → S) :
    List (Change T) → List (Change S)
  | [] => []
  | c :: cs => (fold seed c.1 c.2, Delta.Insert) :: reduceSpecTail fold (fold seed c.1 c.2) cs

/-- Event consumed by a WithLatestCollection: a change from upstream or a
change from the other (latest-value) collection. -/
inductive WLEvent (T U : Type) : Type
  | up : Change T → WLEvent T U
  | other : Change U → WLEvent T U

/-- State of a WithLatestCollection (src/core/collection.ts): latestOther
with its hasLatest flag folded into an Option, the currentItems set and
the emittedTuples map used for retraction. -/
structure WLState (T U : Type) where
  latestOther : Option U
  currentItems : List T
  emittedTuples : List (T × (T × U))
deriving DecidableEq, Repr

/-- Subscription callbacks of WithLatestCollection.subscribe, as one step
function over the two event sources. -/
def wlStep {T U : Type} [DecidableEq T] [DecidableEq U] (st : WLState T U) :
    WLEvent T U → WLState T U × List (Change (T × U))
  | .other (u, Delta.Insert) =>
      let retracts :=
        if st.latestOther.isSome then
          st.currentItems.filterMap fun t =>
            (assocLookup st.emittedTuples t).map fun tup => (tup, Delta.Retract)
        else []
      (⟨some u, st.currentItems,
          st.currentItems.foldl (fun m t => assocSet m t (t, u)) st.emittedTuples⟩,
        retracts ++ st.currentItems.map fun t => ((t, u), Delta.Insert))
  | .other (_, Delta.Retract) => (st, [])
  | .up (t, Delta.Insert) =>
      match st.latestOther with
      | some u =>
          (⟨some u, setAdd st.currentItems t, assocSet st.emittedTuples t (t, u)⟩,
            [((t, u), Delta.Insert)])
      | none => (⟨none, setAdd st.currentItems t, st.emittedTuples⟩, [])
  | .up (t, Delta.Retract) =>
      match st.latestOther with
      | some u =>
          match assocLookup st.emittedTuples t with
          | some tup =>
              (⟨some u, st.currentItems.erase t, assocDelete st.emittedTuples t⟩,
                [(tup, Delta.Retract)])
          | none => (⟨some u, st.currentItems.erase t, st.emittedTuples⟩, [])
      | none => (⟨none, st.currentItems.erase t, st.emittedTuples⟩, [])

/-- Fresh WithLatestCollection state. -/
def wlInit {T U : Type} : WLState T U := ⟨none, [], []⟩

/-- Run a WithLatestCollection from a fresh state over an event list. -/
def wlRun {T U : Type} [DecidableEq T] [DecidableEq U] (evs : List (WLEvent T U)) :
    WLState T U × List (Change (T × U)) :=
  runFold wlStep wlInit [] evs

/-- Event consumed by a context-free FlatMapCollection: an upstream change,
a change delivered by the inner collection subscribed for a given item, or
a change on some context input (which this node is not subscribed to). -/
inductive FMEvent (T U R : Type) : Type
  | up : Change T → FMEvent T U R
  | inner : T → Change U → FMEvent T U R
  | ctx : Change R → FMEvent T U R

/-- Discriminator for context events. -/
def FMEvent.isCtx {T U R : Type} : FMEvent T U R → Bool
  | .ctx _ => true
  | _ => false

/-- State of a FlatMapCollection (src/core/collection.ts): the keys of the
innerUnsubs map (the items with a live inner subscription) and the
innerValues map of live inner values per item. -/
structure FMState (T U : Type) where
  active : List T
  innerValues : List (T × List U)
deriving DecidableEq, Repr

/-- Subscription callback of FlatMapCollection.subscribe, with the inner
collection produced for an item modelled as the base collection holding
the list given by the flat-map function (its subscribe replays that list
as Inserts).  On upstream Insert: subscribe the inner collection, whose
replay pushes each value into the tracked list and forwards it as an
Insert.  On upstream Retract: unsubscribe the inner collection, emit a
synthetic Retract for every tracked value in recorded order and drop the
bookkeeping; both map lookups are guarded.  Later inner changes are
forwarded while maintaining the tracked list; context changes are ignored
(this node holds no context subscription). -/
def fmStep {T U R : Type} [DecidableEq T] [DecidableEq U] (f : T → List U) (st : FMState T U) :
    FMEvent T U R → FMState T U × List (Change U)
  | .up (t, Delta.Insert) =>
      (⟨setAdd st.active t, assocSet st.innerValues t (f t)⟩,
        (f t).map fun v => (v, Delta.Insert))
  | .up (t, Delta.Retract) =>
      match assocLookup st.innerValues t with
      | some vs =>
          (⟨st.active.erase t, assocDelete st.innerValues t⟩,
            vs.map fun v => (v, Delta.Retract))
      | none => (⟨st.active.erase t, st.innerValues⟩, [])
  | .inner t (v, d) =>
      if t ∈ st.active then
        match assocLookup st.innerValues t with
        | some vs =>
            (⟨st.active, assocSet st.innerValues t
                (match d with
                 | Delta.Insert => vs ++ [v]
                 | Delta.Retract => vs.erase v)⟩,
              [(v, d)])
        | none => (st, [(v, d)])
      else (st, [])
  | .ctx _ => (st, [])

/-- Fresh FlatMapCollection state. -/
def fmInit {T U : Type} : FMState T U := ⟨[], []⟩

/-- Run a context-free FlatMapCollection from a fresh state. -/
def fmRun {T U R : Type} [DecidableEq T] [DecidableEq U] (f : T → List U)
    (evs : List (FMEvent T U R)) : FMState T U × List (Change U) :=
  runFold (fmStep f) fmInit [] evs

/-- registerContext from src/core/context-registry.ts: push the collection
onto the process-wide list. -/
def registerContext {C : Type} (reg : List C) (c : C) : List C := reg ++ [c]

/-- The unregister closure returned by registerContext: splice out the
first occurrence of the collection when present. -/
def unregisterContext {C : Type} [DecidableEq C] (reg : List C) (c : C) : List C := reg.erase c

/-- getRegisteredContexts from src/core/context-registry.ts: a copy of the
current registry list. -/
def getRegisteredContexts {C : Type} (reg : List C) : List C := reg

/-- The node Collection.flatMap builds: the context-aware variant when the
registry is non-empty at call time (capturing the registry copy), the
plain FlatMapCollection otherwise. -/
inductive FlatMapNode (C : Type) : Type
  | plain : FlatMapNode C
  | withContexts : List C → FlatMapNode C
deriving DecidableEq, Repr

/-- Collection.flatMap from src/core/collection.ts, restricted to the
choice of node: consult getRegisteredContexts and branch on emptiness. -/
def mkFlatMap {C : Type} (reg : List C) : FlatMapNode C :=
  let contexts := getRegisteredContexts reg
  if 0 < contexts.length then FlatMapNode.withContexts contexts else FlatMapNode.plain

/-- Event consumed by a JoinCollection: a change on side A or on side B. -/
abbrev JoinEvent (A B : Type) := Change A ⊕ Change B

/-- State of a JoinCollection (src/core/collection.ts): the two hash
indexes from join key to the list of currently present rows, with a Map
miss read as the empty list. -/
structure JoinState (A B K : Type) where
  indexA : K → List A
  indexB : K → List B

/-- Fresh JoinCollection state: both indexes empty. -/
def joinInit {A B K : Type} : JoinState A B K := ⟨fun _ => [], fun _ => []⟩

/-- Subscription callbacks of JoinCollection.subscribe, as one step
function over the two sides.  Insert on a side pushes the row into that
side's index under its key and emits Insert pairs with every matching row
of the opposite index in insertion order; Retract splices out the first
matching occurrence and emits Retract pairs with every matching row still
in the opposite index. -/
def joinStep {A B K : Type} [DecidableEq A] [DecidableEq B] [DecidableEq K]
    (kA : A → K) (kB : B → K) (st : JoinState A B K) :
    JoinEvent A B → JoinState A B K × List (Change (A × B))
  | Sum.inl (a, Delta.Insert) =>
      (⟨fun k => if k = kA a then st.indexA k ++ [a] else st.indexA k, st.indexB⟩,
        (st.indexB (kA a)).map fun b => ((a, b), Delta.Insert))
  | Sum.inl (a, Delta.Retract) =>
      (⟨fun k => if k = kA a then (st.indexA k).erase a else st.indexA k, st.indexB⟩,
        (st.indexB (kA a)).map fun b => ((a, b), Delta.Retract))
  | Sum.inr (b, Delta.Insert) =>
      (⟨st.indexA, fun k => if k = kB b then st.indexB k ++ [b] else st.indexB k⟩,
        (st.indexA (kB b)).map fun a => ((a, b), Delta.Insert))
  | Sum.inr (b, Delta.Retract) =>
      (⟨st.indexA, fun k => if k = kB b then (st.indexB k).erase b else st.indexB k⟩,
        (st.indexA (kB b)).map fun a => ((a, b), Delta.Retract))

/-- Run a JoinCollection from a fresh state over an event list. -/
def joinRun {A B K : Type} [DecidableEq A] [DecidableEq B] [DecidableEq K]
    (kA : A → K) (kB : B → K) (evs : List (JoinEvent A B)) :
    JoinState A B K × List (Change (A × B)) :=
  runFold (joinStep kA kB) joinInit [] evs

/-- Changes delivered on side A of a join event sequence. -/
def sideA {A B : Type} (evs : List (JoinEvent A B)) : List (Change A) :=
  evs.filterMap Sum.getLeft?

/-- Changes delivered on side B of a join event sequence. -/
def sideB {A B : Type} (evs : List (JoinEvent A B)) : List (Change B) :=
  evs.filterMap Sum.getRight?

/-- A change sequence is valid from a starting multiplicity when every
Retract concerns a value whose current multiplicity is positive, so that
the implied member multiset stays an actual multiset throughout. -/
def validFrom {T : Type} [DecidableEq T] : (T → Int) → List (Change T) → Bool
  | _, [] => true
  | cnt, c :: cs =>
      match c.2 with
      | Delta.Insert => validFrom (applyChange cnt c) cs
      | Delta.Retract => decide (0 < cnt c.1) && validFrom (applyChange cnt c) cs

/-- Both sides of a join event sequence are valid from empty. -/
def joinValid {A B : Type} [DecidableEq A] [DecidableEq B] (evs : List (JoinEvent A B)) : Bool :=
  validFrom (fun _ => 0) (sideA evs) && validFrom (fun _ => 0) (sideB evs)

/-- Join invariant: each index bucket holds exactly the rows of its key
with the side's implied multiplicity, and the implied multiplicity of each
output pair is the product of the sides' multiplicities when the keys
match and zero otherwise (the signed equi-join). -/
def JoinInv {A B K : Type} [DecidableEq A] [DecidableEq B] [DecidableEq K]
    (kA : A → K) (kB : B → K) (st : JoinState A B K)
    (cA : A → Int) (cB : B → Int) (out : List (Change (A × B))) : Prop :=
  (∀ a k, (((st.indexA k).count a : Nat) : Int) = if kA a = k then cA a else 0) ∧
  (∀ b k, (((st.indexB k).count b : Nat) : Int) = if kB b = k then cB b else 0) ∧
  (∀ a b, impliedCount out (a, b) = if kA a = kB b then cA a * cB b else 0)

section Lemmas

/-- Unfolding a run by one event. -/
theorem runFold_cons {σ ε ω : Type} (step : σ → ε → σ × List ω) (st : σ) (out : List ω)
    (e : ε) (es : List ε) :
    runFold step st out (e :: es) = runFold step (step st e).1 (out ++ (step st e).2) es := rfl

/-- Folding changes distributes over append. -/
theorem applyChanges_append {T : Type} [DecidableEq T] (cnt : T → Int)
    (l1 l2 : List (Change T)) :
    applyChanges cnt (l1 ++ l2) = applyChanges (applyChanges cnt l1) l2 := by
  simp [applyChanges, List.foldl_append]

/-- Folding one more change. -/
theorem applyChanges_cons {T : Type} [DecidableEq T] (cnt : T → Int) (c : Change T)
    (cs : List (Change T)) :
    applyChanges cnt (c :: cs) = applyChanges (applyChange cnt c) cs := rfl

/-- Implied multiplicity of a concatenated change stream. -/
theorem impliedCount_append {T : Type} [DecidableEq T] (l1 l2 : List (Change T)) (x : T) :
    impliedCount (l1 ++ l2) x = applyChanges (impliedCount l1) l2 x := by
  simp [impliedCount, applyChanges_append]

end Lemmas

/-- C8: inserting a value already present in an Input leaves the
membership set (and the replay snapshot) unchanged, yet still emits one
additional Insert delta: deltas are not deduplicated, only membership is. -/
theorem input_duplicate_insert (T : Type) [DecidableEq T] (st : InputState T) (v : T)
    (h : v ∈ st.values) :
    (Input.insert st v).1.values = st.values ∧
    (Input.insert st v).1.data = st.values ∧
    (Input.insert st v).2 = [(v, Delta.Insert)] := by
  simp [Input.insert, setAdd, h]

theorem input_duplicate_insert_witness :
    (5 : Nat) ∈ (⟨[5], [5]⟩ : InputState Nat).values ∧
    ((Input.insert (⟨[5], [5]⟩ : InputState Nat) 5).1.values = [5] ∧
      (Input.insert (⟨[5], [5]⟩ : InputState Nat) 5).1.data = [5] ∧
      (Input.insert (⟨[5], [5]⟩ : InputState Nat) 5).2 = [(5, Delta.Insert)]) :=
  ⟨by decide, input_duplicate_insert Nat ⟨[5], [5]⟩ 5 (by decide)⟩

/-- C9: Input.update on an empty Input is a complete no-op: the update
function is never consulted (the result is the same for every function),
no delta is emitted, and both the membership set and the replay snapshot
are unchanged. -/
theorem input_update_empty_noop (T : Type) [DecidableEq T] (st : InputState T) (f : T → T)
    (h : st.values = []) :
    Input.update st f = (st, []) ∧ ∀ g : T → T, Input.update st g = Input.update st f := by
  constructor
  · simp [Input.update, h]
  · intro g
    simp [Input.update, h]

theorem input_update_empty_noop_witness :
    Input.update (⟨[], []⟩ : InputState Nat) (fun x => x + 1) = (⟨[], []⟩, []) :=
  (input_update_empty_noop Nat ⟨[], []⟩ (fun x => x + 1) rfl).1

/-- While the batching flag is set every sequence of scheduleEmit calls is
queued in order and nothing reaches the delivered log. -/
theorem runScheduled_batching {E : Type} :
    ∀ (body p log : List E),
      runScheduled ⟨true, p⟩ log body = (⟨true, p ++ body⟩, log) := by
  intro body
  induction body with
  | nil => intro p log; simp [runScheduled]
  | cons e es ih => intro p log; simpa [runScheduled, scheduleEmit] using ih (p ++ [e]) log

/-- C6: tx sets the process-wide batching flag for the duration of the
body; every emission passed to scheduleEmit while the flag is set is
queued instead of run immediately; when the body finishes, normally or by
throwing, the flag is cleared and every queued emission runs in the exact
order it was scheduled; outside any tx, scheduleEmit runs the emission
immediately.  In particular a tx inserting 1 then 2 on a fresh Input
delivers both Insert deltas together, in call order, after tx returns. -/
theorem tx_batching_protocol (E : Type) :
    (∀ (st : TxState E) (log : List E) (e : E), st.batching = true →
        scheduleEmit st log e = (⟨true, st.pending ++ [e]⟩, log)) ∧
    (∀ (st : TxState E) (log : List E) (e : E), st.batching = false →
        scheduleEmit st log e = (st, log ++ [e])) ∧
    (∀ (st : TxState E) (log body : List E) (thrown : Bool),
        tx st log body thrown = ((⟨false, []⟩, log ++ st.pending ++ body), thrown)) ∧
    tx (⟨false, []⟩ : TxState (Change Nat)) [] [(1, Delta.Insert), (2, Delta.Insert)] false
      = ((⟨false, []⟩, [(1, Delta.Insert), (2, Delta.Insert)]), false) := by
  refine ⟨?_, ?_, ?_, by decide⟩
  · intro st log e h
    simp [scheduleEmit, h]
  · intro st log e h
    simp [scheduleEmit, h]
  · intro st log body thrown
    simp [tx, runScheduled_batching]

theorem tx_batching_protocol_witness :
    scheduleEmit (⟨true, []⟩ : TxState Nat) [] 7 = (⟨true, [7]⟩, []) ∧
    scheduleEmit (⟨false, []⟩ : TxState Nat) [] 7 = (⟨false, []⟩, [7]) :=
  ⟨(tx_batching_protocol Nat).1 ⟨true, []⟩ [] 7 rfl,
    (tx_batching_protocol Nat).2.1 ⟨false, []⟩ [] 7 rfl⟩

/-- C10: an upstream Retract on a flatMap node for an item with no
recorded inner subscription (never inserted, or already retracted) emits
nothing downstream and leaves the bookkeeping maps unchanged; the guarded
lookups make the retract branch total. -/
theorem flatMap_retract_unknown_safe (T U R : Type) [DecidableEq T] [DecidableEq U]
    (f : T → List U) (st : FMState T U) (t : T)
    (h1 : assocLookup st.innerValues t = none) (h2 : t ∉ st.active) :
    fmStep f st ((FMEvent.up (t, Delta.Retract)) : FMEvent T U R) = (st, []) := by
  simp [fmStep, h1, List.erase_of_not_mem h2]

theorem flatMap_retract_unknown_safe_witness :
    fmStep (fun x => [x]) (fmInit : FMState Nat Nat)
        ((FMEvent.up (3, Delta.Retract)) : FMEvent Nat Nat Nat) = (fmInit, []) :=
  flatMap_retract_unknown_safe Nat Nat Nat (fun x => [x]) fmInit 3 rfl (by decide)

/-- C5: on an upstream Retract of an item previously inserted into a
context-free flatMap node, the node unsubscribes the inner collection of
that item (removes it from the live set), emits one synthetic Retract for
every inner value currently recorded as live for that item in recorded
order, and discards that item's bookkeeping.  With the mapping
x to from([x, x*10]), inserting 1 then 2 yields Insert 1, 10, 2, 20 and
then retracting 1 yields Retract 1, 10. -/
theorem flatMap_retract_cleanup (T U R : Type) [DecidableEq T] [DecidableEq U]
    (f : T → List U) (st : FMState T U) (t : T) (vs : List U)
    (h : assocLookup st.innerValues t = some vs) :
    (fmStep f st ((FMEvent.up (t, Delta.Retract)) : FMEvent T U R)).2
        = vs.map (fun v => (v, Delta.Retract)) ∧
    (fmStep f st ((FMEvent.up (t, Delta.Retract)) : FMEvent T U R)).1.active
        = st.active.erase t ∧
    (fmStep f st ((FMEvent.up (t, Delta.Retract)) : FMEvent T U R)).1.innerValues
        = assocDelete st.innerValues t ∧
    (fmRun (fun x => [x, x * 10])
        ([.up (1, Delta.Insert), .up (2, Delta.Insert)] : List (FMEvent Nat Nat Nat))).2
      = [(1, Delta.Insert), (10, Delta.Insert), (2, Delta.Insert), (20, Delta.Insert)] ∧
    (fmRun (fun x => [x, x * 10])
        ([.up (1, Delta.Insert), .up (2, Delta.Insert), .up (1, Delta.Retract)] :
          List (FMEvent Nat Nat Nat))).2
      = [(1, Delta.Insert), (10, Delta.Insert), (2, Delta.Insert), (20, Delta.Insert),
          (1, Delta.Retract), (10, Delta.Retract)] :=
  ⟨by simp [fmStep, h], by simp [fmStep, h], by simp [fmStep, h], by decide, by decide⟩

theorem flatMap_retract_cleanup_witness :
    (fmStep (fun x => [x, x * 10]) (⟨[1], [(1, [1, 10])]⟩ : FMState Nat Nat)
        ((FMEvent.up (1, Delta.Retract)) : FMEvent Nat Nat Nat)).2
      = ([1, 10] : List Nat).map (fun v => (v, Delta.Retract)) :=
  (flatMap_retract_cleanup Nat Nat Nat (fun x => [x, x * 10])
    ⟨[1], [(1, [1, 10])]⟩ 1 [1, 10] rfl).1

/-- A ReduceCollection that has emitted keeps its hasEmitted flag through
any further upstream changes. -/
theorem reduceRun_hasEmitted {S T : Type} (fold : S → T → Delta → S) :
    ∀ (cs : List (Change T)) (st : ReduceState S) (out : List (Change S)),
      st.hasEmitted = true →
      (runFold (reduceStep fold) st out cs).1.hasEmitted = true := by
  intro cs
  induction cs with
  | nil =>
      intro st out h
      simpa [runFold] using h
  | cons c cs ih =>
      intro st out h
      rw [runFold_cons]
      exact ih _ _ rfl

/-- C2: a subscriber that attaches to a reduce node after at least one
upstream delta has been processed receives exactly one Insert of the
current aggregate state and no Retract as its replay. -/
theorem reduce_replay_late_subscriber (S T : Type) (seed : S) (fold : S → T → Delta → S)
    (cs : List (Change T)) (h : cs ≠ []) :
    reduceReplay (reduceRun seed fold cs).1
      = [((reduceRun seed fold cs).1.state, Delta.Insert)] := by
  cases cs with
  | nil => exact absurd rfl h
  | cons c cs =>
      have hE : (reduceRun seed fold (c :: cs)).1.hasEmitted = true := by
        rw [reduceRun, runFold_cons]
        exact reduceRun_hasEmitted fold cs _ _ rfl
      simp [reduceReplay, hE]

theorem reduce_replay_late_subscriber_witness :
    ([((5 : Nat), Delta.Insert)] : List (Change Nat)) ≠ [] ∧
    reduceReplay (reduceRun (0 : Nat) (fun s v _ => s + v) [((5 : Nat), Delta.Insert)]).1
      = [((reduceRun (0 : Nat) (fun s v _ => s + v) [((5 : Nat), Delta.Insert)]).1.state,
          Delta.Insert)] :=
  ⟨by decide, reduce_replay_late_subscriber Nat Nat 0 (fun s v _ => s + v)
    [(5, Delta.Insert)] (by decide)⟩

/-- Run of a reduce node that already has an answer: each upstream change
retracts the previous state then inserts the next one. -/
theorem reduceRun_spec_tail {S T : Type} (fold : S → T → Delta → S) :
    ∀ (cs : List (Change T)) (s : S) (out : List (Change S)),
      (runFold (reduceStep fold) ⟨s, true⟩ out cs).2 = out ++ reduceSpecTail fold s cs := by
  intro cs
  induction cs with
  | nil =>
      intro s out
      simp [runFold, reduceSpecTail]
  | cons c cs ih =>
      intro s out
      rw [runFold_cons]
      simp [reduceStep, reduceSpecTail, ih]

/-- C3: the reduce emission protocol.  Nothing is emitted before the first
upstream delta (the seed is never surfaced, neither live nor as replay);
each upstream change folds the new state, emits Retract of the old state
exactly when an answer already existed, then always emits Insert of the
new state — so the full output stream equals the protocol stream; and the
concrete scenario insert 5 then insert 3 through reduce(0, signed sum)
yields exactly Insert 5, Retract 5, Insert 8. -/
theorem reduce_emission_protocol (S T : Type) (seed : S) (fold : S → T → Delta → S)
    (cs : List (Change T)) :
    (reduceRun seed fold cs).2 = reduceSpecOutput seed fold cs ∧
    (reduceRun seed fold ([] : List (Change T))).2 = [] ∧
    reduceReplay (⟨seed, false⟩ : ReduceState S) = [] ∧
    (reduceRun (0 : Int) (fun s v d => s + (if d = Delta.Insert then v else -v))
        [((5 : Int), Delta.Insert), ((3 : Int), Delta.Insert)]).2
      = [((5 : Int), Delta.Insert), (5, Delta.Retract), (8, Delta.Insert)] := by
  refine ⟨?_, rfl, rfl, by decide⟩
  cases cs with
  | nil => rfl
  | cons c cs =>
      rw [reduceRun, runFold_cons]
      simp [reduceStep, reduceSpecOutput, reduceRun_spec_tail]

/-- When every tracked item has a recorded tuple, the guarded retract
lookups collapse to a plain map over the tracked items. -/
theorem wl_filterMap_lookup {T U : Type} [DecidableEq T]
    (m : List (T × (T × U))) (u0 : U) :
    ∀ (l : List T), (∀ t ∈ l, assocLookup m t = some (t, u0)) →
      (l.filterMap fun t => (assocLookup m t).map fun tup => (tup, Delta.Retract))
        = l.map fun t => ((t, u0), Delta.Retract) := by
  intro l
  induction l with
  | nil => intro _; rfl
  | cons t l ih =>
      intro h
      have ht := h t (by simp)
      simp [List.filterMap_cons, ht, ih fun x hx => h x (by simp [hx])]

/-- C4: the withLatest re-emission protocol.  While no value has arrived
from the other collection, upstream changes emit nothing although items
are still tracked as current; once a latest value exists, an Insert from
the other collection retracts every currently-tracked item with its
previously recorded tuple and then re-inserts it paired with the new
latest value; and the concrete scenario with tracked items 1, 2, 3 and
latest 10 changing to 20 yields three Retracts of the old tuples followed
by three Inserts of the new tuples. -/
theorem withLatest_reemission (T U : Type) [DecidableEq T] [DecidableEq U] :
    (∀ (st : WLState T U) (t : T), st.latestOther = none →
        (wlStep st (.up (t, Delta.Insert))).2 = [] ∧
        (wlStep st (.up (t, Delta.Retract))).2 = [] ∧
        (wlStep st (.up (t, Delta.Insert))).1.currentItems = setAdd st.currentItems t ∧
        (wlStep st (.up (t, Delta.Retract))).1.currentItems = st.currentItems.erase t) ∧
    (∀ (st : WLState T U) (u0 u : U), st.latestOther = some u0 →
        (∀ t ∈ st.currentItems, assocLookup st.emittedTuples t = some (t, u0)) →
        (wlStep st (.other (u, Delta.Insert))).2
          = (st.currentItems.map fun t => ((t, u0), Delta.Retract))
            ++ st.currentItems.map fun t => ((t, u), Delta.Insert)) ∧
    (wlRun ([.other (10, Delta.Insert), .up (1, Delta.Insert), .up (2, Delta.Insert),
        .up (3, Delta.Insert), .other (20, Delta.Insert)] : List (WLEvent Nat Nat))).2
      = [((1, 10), Delta.Insert), ((2, 10), Delta.Insert), ((3, 10), Delta.Insert),
          ((1, 10), Delta.Retract), ((2, 10), Delta.Retract), ((3, 10), Delta.Retract),
          ((1, 20), Delta.Insert), ((2, 20), Delta.Insert), ((3, 20), Delta.Insert)] := by
  refine ⟨?_, ?_, by decide⟩
  · intro st t h
    refine ⟨?_, ?_, ?_, ?_⟩ <;> simp [wlStep, h]
  · intro st u0 u h hrec
    simp [wlStep, h, wl_filterMap_lookup st.emittedTuples u0 st.currentItems hrec]

theorem withLatest_reemission_witness :
    (wlStep (⟨none, [], []⟩ : WLState Nat Nat) (.up (1, Delta.Insert))).2 = [] ∧
    (wlStep (⟨some 10, [1], [(1, (1, 10))]⟩ : WLState Nat Nat) (.other (20, Delta.Insert))).2
      = (([1] : List Nat).map fun t => ((t, (10 : Nat)), Delta.Retract))
        ++ ([1] : List Nat).map fun t => ((t, (20 : Nat)), Delta.Insert) :=
  ⟨((withLatest_reemission Nat Nat).1 ⟨none, [], []⟩ 1 rfl).1,
    (withLatest_reemission Nat Nat).2.1 ⟨some 10, [1], [(1, (1, 10))]⟩ 10 20 rfl (by decide)⟩

/-- A context-free flatMap node is driven only by upstream and inner
events: dropping all context events from a run changes nothing. -/
theorem fmRun_ignores_ctx {T U R : Type} [DecidableEq T] [DecidableEq U] (f : T → List U) :
    ∀ (evs : List (FMEvent T U R)) (st : FMState T U) (out : List (Change U)),
      runFold (fmStep f) st out evs
        = runFold (fmStep f) st out (evs.filter fun e => !(FMEvent.isCtx e)) := by
  intro evs
  induction evs with
  | nil => intro st out; rfl
  | cons e es ih =>
      intro st out
      cases e with
      | up c => simpa [List.filter_cons, FMEvent.isCtx, runFold_cons] using ih _ _
      | inner t c => simpa [List.filter_cons, FMEvent.isCtx, runFold_cons] using ih _ _
      | ctx c => simpa [List.filter_cons, FMEvent.isCtx, runFold_cons, fmStep] using ih _ _

/-- C7: after dispose removes a context from the registry, a later flatMap
call no longer auto-detects it — when no other context remains the node
built is the plain context-free one, whose output ignores context changes
entirely — while a flatMap call made before disposal captured the registry
as it then was, containing the disposed context. -/
theorem context_dispose_cutoff (C T U R : Type) [DecidableEq C] [DecidableEq T] [DecidableEq U]
    (c : C) (reg : List C) (h : unregisterContext reg c = []) :
    mkFlatMap (getRegisteredContexts (unregisterContext reg c)) = FlatMapNode.plain ∧
    (∀ (f : T → List U) (evs : List (FMEvent T U R)),
        fmRun f evs = fmRun f (evs.filter fun e => !(FMEvent.isCtx e))) ∧
    (c ∈ reg →
        ∃ l, mkFlatMap (getRegisteredContexts reg) = FlatMapNode.withContexts l ∧ c ∈ l) := by
  refine ⟨?_, ?_, ?_⟩
  · rw [h]
    rfl
  · intro f evs
    exact fmRun_ignores_ctx f evs fmInit []
  · intro hc
    refine ⟨reg, ?_, hc⟩
    simp [mkFlatMap, getRegisteredContexts, List.length_pos_of_mem hc]

theorem context_dispose_cutoff_witness :
    mkFlatMap (getRegisteredContexts (unregisterContext ([7] : List Nat) 7))
      = FlatMapNode.plain ∧
    (∃ l, mkFlatMap (getRegisteredContexts ([7] : List Nat)) = FlatMapNode.withContexts l ∧
        (7 : Nat) ∈ l) :=
  ⟨(context_dispose_cutoff Nat Nat Nat Nat 7 [7] (by decide)).1,
    (context_dispose_cutoff Nat Nat Nat Nat 7 [7] (by decide)).2.2 (by decide)⟩

/-- Occurrence count after pushing one element. -/
theorem count_append_one {A : Type} [DecidableEq A] (l : List A) (a a0 : A) :
    (l ++ [a0]).count a = l.count a + if a = a0 then 1 else 0 := by
  by_cases h : a = a0 <;> simp [List.count_append, List.count_singleton', h, eq_comm]

/-- Occurrence count after splicing out the first occurrence of a present
element, cast to the integers. -/
theorem count_erase_int {A : Type} [DecidableEq A] (l : List A) (a a0 : A)
    (h : 1 ≤ l.count a0) :
    (((l.erase a0).count a : Nat) : Int)
      = ((l.count a : Nat) : Int) - if a = a0 then 1 else 0 := by
  by_cases ha : a = a0
  · subst ha
    rw [List.count_erase_self, if_pos rfl, Nat.cast_sub h]
    simp
  · rw [List.count_erase_of_ne ha]
    simp [ha]

/-- Implied multiplicity contributed by the burst a join side emits: pairs
sharing a fixed left component, one per matching right row. -/
theorem applyChanges_pairs_fst {A B : Type} [DecidableEq A] [DecidableEq B]
    (a0 : A) (d : Delta) (l : List B) (a : A) (b : B) :
    ∀ cnt : A × B → Int,
      applyChanges cnt (l.map fun b0 => ((a0, b0), d)) (a, b)
        = cnt (a, b) + if a = a0 then d.val * ((l.count b : Nat) : Int) else 0 := by
  induction l with
  | nil =>
      intro cnt
      simp [applyChanges]
  | cons b0 l ih =>
      intro cnt
      rw [List.map_cons, applyChanges_cons, ih]
      simp only [applyChange, Prod.mk.injEq]
      by_cases ha : a = a0 <;> by_cases hb : b = b0 <;>
        simp [ha, hb, List.count_cons] <;> push_cast <;> ring

/-- Implied multiplicity contributed by the burst a join side emits: pairs
sharing a fixed right component, one per matching left row. -/
theorem applyChanges_pairs_snd {A B : Type} [DecidableEq A] [DecidableEq B]
    (b0 : B) (d : Delta) (l : List A) (a : A) (b : B) :
    ∀ cnt : A × B → Int,
      applyChanges cnt (l.map fun a0 => ((a0, b0), d)) (a, b)
        = cnt (a, b) + if b = b0 then d.val * ((l.count a : Nat) : Int) else 0 := by
  induction l with
  | nil =>
      intro cnt
      simp [applyChanges]
  | cons a0 l ih =>
      intro cnt
      rw [List.map_cons, applyChanges_cons, ih]
      simp only [applyChange, Prod.mk.injEq]
      by_cases ha : a = a0 <;> by_cases hb : b = b0 <;>
        simp [ha, hb, List.count_cons] <;> push_cast <;> ring

/-- Projection of a join event sequence headed by a side-A change. -/
theorem sideA_cons_inl {A B : Type} (c : Change A) (evs : List (JoinEvent A B)) :
    sideA (Sum.inl c :: evs) = c :: sideA evs := by
  simp [sideA]

/-- Projection to side A skips side-B changes. -/
theorem sideA_cons_inr {A B : Type} (c : Change B) (evs : List (JoinEvent A B)) :
    sideA (Sum.inr c :: evs) = sideA evs := by
  simp [sideA]

/-- Projection to side B skips side-A changes. -/
theorem sideB_cons_inl {A B : Type} (c : Change A) (evs : List (JoinEvent A B)) :
    sideB (Sum.inl c :: evs) = sideB evs := by
  simp [sideB]

/-- Projection of a join event sequence headed by a side-B change. -/
theorem sideB_cons_inr {A B : Type} (c : Change B) (evs : List (JoinEvent A B)) :
    sideB (Sum.inr c :: evs) = c :: sideB evs := by
  simp [sideB]

/-- Side projections distribute over append. -/
theorem sideA_append {A B : Type} (l1 l2 : List (JoinEvent A B)) :
    sideA (l1 ++ l2) = sideA l1 ++ sideA l2 := by
  simp [sideA]

/-- Side projections distribute over append. -/
theorem sideB_append {A B : Type} (l1 l2 : List (JoinEvent A B)) :
    sideB (l1 ++ l2) = sideB l1 ++ sideB l2 := by
  simp [sideB]

/-- A prefix of a valid change sequence is valid. -/
theorem validFrom_append_left {T : Type} [DecidableEq T] :
    ∀ (l1 l2 : List (Change T)) (cnt : T → Int),
      validFrom cnt (l1 ++ l2) = true → validFrom cnt l1 = true := by
  intro l1
  induction l1 with
  | nil => intro l2 cnt _; rfl
  | cons c cs ih =>
      intro l2 cnt h
      obtain ⟨x, d⟩ := c
      cases d with
      | Insert =>
          rw [List.cons_append, validFrom] at h
          rw [validFrom]
          exact ih l2 _ h
      | Retract =>
          rw [List.cons_append, validFrom] at h
          rw [validFrom, Bool.and_eq_true] at *
          exact ⟨h.1, ih l2 _ h.2⟩

/-- Preservation of the join invariant by an Insert on side A. -/
theorem join_inv_insertA {A B K : Type} [DecidableEq A] [DecidableEq B] [DecidableEq K]
    (kA : A → K) (kB : B → K) (st : JoinState A B K) (cA : A → Int) (cB : B → Int)
    (out : List (Change (A × B))) (hI : JoinInv kA kB st cA cB out) (a0 : A) :
    JoinInv kA kB
      ⟨fun k => if k = kA a0 then st.indexA k ++ [a0] else st.indexA k, st.indexB⟩
      (applyChange cA (a0, Delta.Insert)) cB
      (out ++ (st.indexB (kA a0)).map fun b => ((a0, b), Delta.Insert)) := by
  obtain ⟨hA, hB, hO⟩ := hI
  have hch : applyChange cA (a0, Delta.Insert) = fun y => if y = a0 then cA y + 1 else cA y := rfl
  refine ⟨?_, hB, ?_⟩
  · intro a k
    dsimp only
    rw [hch]
    by_cases hk : k = kA a0
    · rw [if_pos hk, count_append_one]
      push_cast
      rw [hA a k]
      by_cases ha : a = a0
      · subst ha
        rw [hk]
        simp
      · simp [ha]
    · rw [if_neg hk, hA a k]
      by_cases ha : a = a0
      · subst ha
        have hkne : ¬ kA a = k := fun hh => hk hh.symm
        simp [hkne]
      · simp [ha]
  · intro a b
    rw [impliedCount_append, applyChanges_pairs_fst, hO a b, hB b (kA a0), hch]
    dsimp only [Delta.val]
    by_cases ha : a = a0
    · subst ha
      by_cases hk : kA a = kB b
      · have hk' : kB b = kA a := hk.symm
        simp only [if_pos hk, if_pos hk', eq_self_iff_true, if_true, one_mul]
        ring
      · have hk' : ¬ kB b = kA a := fun hh => hk hh.symm
        simp [hk, hk']
    · simp [ha]

/-- Preservation of the join invariant by a Retract on side A of a row
with positive current multiplicity. -/
theorem join_inv_retractA {A B K : Type} [DecidableEq A] [DecidableEq B] [DecidableEq K]
    (kA : A → K) (kB : B → K) (st : JoinState A B K) (cA : A → Int) (cB : B → Int)
    (out : List (Change (A × B))) (hI : JoinInv kA kB st cA cB out) (a0 : A)
    (hpos : 0 < cA a0) :
    JoinInv kA kB
      ⟨fun k => if k = kA a0 then (st.indexA k).erase a0 else st.indexA k, st.indexB⟩
      (applyChange cA (a0, Delta.Retract)) cB
      (out ++ (st.indexB (kA a0)).map fun b => ((a0, b), Delta.Retract)) := by
  obtain ⟨hA, hB, hO⟩ := hI
  have hch : applyChange cA (a0, Delta.Retract)
      = fun y => if y = a0 then cA y + (-1) else cA y := rfl
  have hcnt : 1 ≤ (st.indexA (kA a0)).count a0 := by
    have hx := hA a0 (kA a0)
    rw [if_pos rfl] at hx
    omega
  refine ⟨?_, hB, ?_⟩
  · intro a k
    dsimp only
    rw [hch]
    by_cases hk : k = kA a0
    · rw [if_pos hk]
      rw [hk, count_erase_int _ _ _ hcnt, hA a (kA a0)]
      by_cases ha : a = a0
      · subst ha
        simp
        omega
      · simp [ha]
    · rw [if_neg hk, hA a k]
      by_cases ha : a = a0
      · subst ha
        have hkne : ¬ kA a = k := fun hh => hk hh.symm
        simp [hkne]
      · simp [ha]
  · intro a b
    rw [impliedCount_append, applyChanges_pairs_fst, hO a b, hB b (kA a0), hch]
    dsimp only [Delta.val]
    by_cases ha : a = a0
    · subst ha
      by_cases hk : kA a = kB b
      · have hk' : kB b = kA a := hk.symm
        simp only [if_pos hk, if_pos hk', eq_self_iff_true, if_true]
        ring
      · have hk' : ¬ kB b = kA a := fun hh => hk hh.symm
        simp [hk, hk']
    · simp [ha]

/-- Preservation of the join invariant by an Insert on side B. -/
theorem join_inv_insertB {A B K : Type} [DecidableEq A] [DecidableEq B] [DecidableEq K]
    (kA : A → K) (kB : B → K) (st : JoinState A B K) (cA : A → Int) (cB : B → Int)
    (out : List (Change (A × B))) (hI : JoinInv kA kB st cA cB out) (b0 : B) :
    JoinInv kA kB
      ⟨st.indexA, fun k => if k = kB b0 then st.indexB k ++ [b0] else st.indexB k⟩
      cA (applyChange cB (b0, Delta.Insert))
      (out ++ (st.indexA (kB b0)).map fun a => ((a, b0), Delta.Insert)) := by
  obtain ⟨hA, hB, hO⟩ := hI
  have hch : applyChange cB (b0, Delta.Insert) = fun y => if y = b0 then cB y + 1 else cB y := rfl
  refine ⟨hA, ?_, ?_⟩
  · intro b k
    dsimp only
    rw [hch]
    by_cases hk : k = kB b0
    · rw [if_pos hk, count_append_one]
      push_cast
      rw [hB b k]
      by_cases hb : b = b0
      · subst hb
        rw [hk]
        simp
      · simp [hb]
    · rw [if_neg hk, hB b k]
      by_cases hb : b = b0
      · subst hb
        have hkne : ¬ kB b = k := fun hh => hk hh.symm
        simp [hkne]
      · simp [hb]
  · intro a b
    rw [impliedCount_append, applyChanges_pairs_snd, hO a b, hA a (kB b0), hch]
    dsimp only [Delta.val]
    by_cases hb : b = b0
    · subst hb
      by_cases hk : kA a = kB b
      · have hk' : kB b = kA a := hk.symm
        simp only [if_pos hk, if_pos hk', eq_self_iff_true, if_true, one_mul]
        ring
      · have hk' : ¬ kB b = kA a := fun hh => hk hh.symm
        have hk2 : ¬ kA a = kB b := hk
        simp [hk2, hk']
    · simp [hb]

/-- Preservation of the join invariant by a Retract on side B of a row
with positive current multiplicity. -/
theorem join_inv_retractB {A B K : Type} [DecidableEq A] [DecidableEq B] [DecidableEq K]
    (kA : A → K) (kB : B → K) (st : JoinState A B K) (cA : A → Int) (cB : B → Int)
    (out : List (Change (A × B))) (hI : JoinInv kA kB st cA cB out) (b0 : B)
    (hpos : 0 < cB b0) :
    JoinInv kA kB
      ⟨st.indexA, fun k => if k = kB b0 then (st.indexB k).erase b0 else st.indexB k⟩
      cA (applyChange cB (b0, Delta.Retract))
      (out ++ (st.indexA (kB b0)).map fun a => ((a, b0), Delta.Retract)) := by
  obtain ⟨hA, hB, hO⟩ := hI
  have hch : applyChange cB (b0, Delta.Retract)
      = fun y => if y = b0 then cB y + (-1) else cB y := rfl
  have hcnt : 1 ≤ (st.indexB (kB b0)).count b0 := by
    have hx := hB b0 (kB b0)
    rw [if_pos rfl] at hx
    omega
  refine ⟨hA, ?_, ?_⟩
  · intro b k
    dsimp only
    rw [hch]
    by_cases hk : k = kB b0
    · rw [if_pos hk]
      rw [hk, count_erase_int _ _ _ hcnt, hB b (kB b0)]
      by_cases hb : b = b0
      · subst hb
        simp
        omega
      · simp [hb]
    · rw [if_neg hk, hB b k]
      by_cases hb : b = b0
      · subst hb
        have hkne : ¬ kB b = k := fun hh => hk hh.symm
        simp [hkne]
      · simp [hb]
  · intro a b
    rw [impliedCount_append, applyChanges_pairs_snd, hO a b, hA a (kB b0), hch]
    dsimp only [Delta.val]
    by_cases hb : b = b0
    · subst hb
      by_cases hk : kA a = kB b
      · have hk' : kB b = kA a := hk.symm
        simp only [if_pos hk, if_pos hk', eq_self_iff_true, if_true]
        ring
      · have hk' : ¬ kB b = kA a := fun hh => hk hh.symm
        have hk2 : ¬ kA a = kB b := hk
        simp [hk2, hk']
    · simp [hb]

/-- The join invariant holds of the fresh node. -/
theorem joinInit_inv {A B K : Type} [DecidableEq A] [DecidableEq B] [DecidableEq K]
    (kA : A → K) (kB : B → K) :
    JoinInv kA kB (joinInit : JoinState A B K) (fun _ => 0) (fun _ => 0) [] := by
  refine ⟨?_, ?_, ?_⟩
  · intro a k
    simp [joinInit]
  · intro b k
    simp [joinInit]
  · intro a b
    simp [impliedCount, applyChanges]

/-- The join invariant is preserved along any run whose two sides are
valid continuations of the current multiplicities. -/
theorem joinRun_inv {A B K : Type} [DecidableEq A] [DecidableEq B] [DecidableEq K]
    (kA : A → K) (kB : B → K) :
    ∀ (evs : List (JoinEvent A B)) (st : JoinState A B K) (cA : A → Int) (cB : B → Int)
      (out : List (Change (A × B))),
      JoinInv kA kB st cA cB out →
      validFrom cA (sideA evs) = true →
      validFrom cB (sideB evs) = true →
      JoinInv kA kB (runFold (joinStep kA kB) st out evs).1
        (applyChanges cA (sideA evs)) (applyChanges cB (sideB evs))
        (runFold (joinStep kA kB) st out evs).2 := by
  intro evs
  induction evs with
  | nil =>
      intro st cA cB out hI _ _
      simpa [runFold, sideA, sideB, applyChanges] using hI
  | cons ev evs ih =>
      intro st cA cB out hI hvA hvB
      rw [runFold_cons]
      cases ev with
      | inl c =>
          obtain ⟨a0, d⟩ := c
          rw [sideA_cons_inl] at hvA ⊢
          rw [sideB_cons_inl] at hvB ⊢
          rw [applyChanges_cons]
          cases d with
          | Insert =>
              simp only [validFrom] at hvA
              exact ih _ _ _ _ (join_inv_insertA kA kB st cA cB out hI a0) hvA hvB
          | Retract =>
              simp only [validFrom, Bool.and_eq_true, decide_eq_true_eq] at hvA
              exact ih _ _ _ _ (join_inv_retractA kA kB st cA cB out hI a0 hvA.1) hvA.2 hvB
      | inr c =>
          obtain ⟨b0, d⟩ := c
          rw [sideA_cons_inr] at hvA ⊢
          rw [sideB_cons_inr] at hvB ⊢
          rw [applyChanges_cons]
          cases d with
          | Insert =>
              simp only [validFrom] at hvB
              exact ih _ _ _ _ (join_inv_insertB kA kB st cA cB out hI b0) hvA hvB
          | Retract =>
              simp only [validFrom, Bool.and_eq_true, decide_eq_true_eq] at hvB
              exact ih _ _ _ _ (join_inv_retractB kA kB st cA cB out hI b0 hvB.1) hvA hvB.2

/-- C1: join correctness.  For every finite sequence of insert/retract
changes delivered on both sides (valid in the sense that a retract always
concerns a currently present row, so the member multisets are genuine
multisets), at every point in the sequence the multiset of
currently-implied output pairs — obtained by folding the join node's
emitted deltas, +1 per Insert and -1 per Retract — equals the equi-join,
on keyA a = keyB b, of the two sides' currently-implied member
multisets. -/
theorem join_correctness (A B K : Type) [DecidableEq A] [DecidableEq B] [DecidableEq K]
    (kA : A → K) (kB : B → K) (evs p : List (JoinEvent A B))
    (hv : joinValid evs = true) (hp : p <+: evs) (a : A) (b : B) :
    impliedCount (joinRun kA kB p).2 (a, b)
      = if kA a = kB b then impliedCount (sideA p) a * impliedCount (sideB p) b else 0 := by
  obtain ⟨t, rfl⟩ := hp
  rw [joinValid, Bool.and_eq_true] at hv
  have hvA : validFrom (fun _ => 0) (sideA p) = true := by
    have h1 := hv.1
    rw [sideA_append] at h1
    exact validFrom_append_left _ _ _ h1
  have hvB : validFrom (fun _ => 0) (sideB p) = true := by
    have h2 := hv.2
    rw [sideB_append] at h2
    exact validFrom_append_left _ _ _ h2
  have h := joinRun_inv kA kB p joinInit (fun _ => 0) (fun _ => 0) []
    (joinInit_inv kA kB) hvA hvB
  exact h.2.2 a b

theorem join_correctness_witness :
    joinValid ([Sum.inl (1, Delta.Insert), Sum.inr (1, Delta.Insert)] :
        List (JoinEvent Nat Nat)) = true ∧
    impliedCount (joinRun (fun a : Nat => a) (fun b : Nat => b)
        [Sum.inl (1, Delta.Insert), Sum.inr (1, Delta.Insert)]).2 (1, 1)
      = if (fun a : Nat => a) 1 = (fun b : Nat => b) 1 then
          impliedCount (sideA ([Sum.inl (1, Delta.Insert), Sum.inr (1, Delta.Insert)] :
              List (JoinEvent Nat Nat))) 1
            * impliedCount (sideB ([Sum.inl (1, Delta.Insert), Sum.inr (1, Delta.Insert)] :
              List (JoinEvent Nat Nat))) 1
        else 0 :=
  ⟨by decide,
    join_correctness Nat Nat Nat (fun a => a) (fun b => b)
      [Sum.inl (1, Delta.Insert), Sum.inr (1, Delta.Insert)]
      [Sum.inl (1, Delta.Insert), Sum.inr (1, Delta.Insert)]
      (by decide) ⟨[], by simp⟩ 1 1⟩

end DDJsx
